import Mathlib

/-!
Shallow embedding of `src/user_tools/src/spark_rapids_tools/utils/util.py`.

Python strings are modelled as Lean `String` (a wrapper around `List Char`);
most of the work happens on the underlying character lists.  Python string
operations that the source uses (`str.split`, `str.capitalize`, `str.isupper`,
`str.lower`, `str.lstrip`, `os.path.expanduser`, `os.path.abspath`,
`posixpath.normpath`, `posixpath.join`) are modelled over the Basic Latin
(ASCII) range, matching CPython behaviour on ASCII input.
-/

namespace SparkRapidsUtil

/-! ### Python `str.split(sep)` and `sep.join` for a one-character separator -/

/-- Python `s.split(sep)` for a single-character separator: splits on every
occurrence of `sep`, keeping empty segments, and returns `[[]]` on the empty
string (CPython returns `['']`). -/
def splitChar (sep : Char) : List Char → List (List Char)
  | [] => [[]]
  | c :: cs =>
    if c = sep then
      [] :: splitChar sep cs
    else
      (c :: (splitChar sep cs).headI) :: (splitChar sep cs).tail

/-- Python `sep.join(parts)` for a single-character separator. -/
def joinSep (sep : Char) : List (List Char) → List Char
  | [] => []
  | [x] => x
  | x :: y :: ys => x ++ sep :: joinSep sep (y :: ys)

lemma headI_mem_of_ne_nil {α : Type} [Inhabited α] (l : List α) (h : l ≠ []) :
    l.headI ∈ l := by
  cases l with
  | nil => exact absurd rfl h
  | cons a t => simp

lemma splitChar_ne_nil (sep : Char) (cs : List Char) : splitChar sep cs ≠ [] := by
  cases cs with
  | nil => simp [splitChar]
  | cons c cs => simp only [splitChar]; split <;> simp

lemma splitChar_nil (sep : Char) : splitChar sep [] = [[]] := rfl

lemma splitChar_cons_sep (sep : Char) (cs : List Char) :
    splitChar sep (sep :: cs) = [] :: splitChar sep cs := by
  simp [splitChar]

lemma splitChar_cons_ne (sep c : Char) (cs : List Char) (h : c ≠ sep) :
    splitChar sep (c :: cs) =
      (c :: (splitChar sep cs).headI) :: (splitChar sep cs).tail := by
  simp [splitChar, h]

lemma splitChar_of_not_mem (sep : Char) (cs : List Char) (h : sep ∉ cs) :
    splitChar sep cs = [cs] := by
  induction cs with
  | nil => rfl
  | cons c cs ih =>
    have hc : c ≠ sep := fun e => h (e ▸ List.mem_cons_self c cs)
    have hcs : sep ∉ cs := fun m => h (List.mem_cons_of_mem _ m)
    rw [splitChar_cons_ne sep c cs hc, ih hcs]
    simp

lemma splitChar_append_sep (sep : Char) (xs ys : List Char) :
    splitChar sep (xs ++ sep :: ys) = splitChar sep xs ++ splitChar sep ys := by
  induction xs with
  | nil => simp [splitChar_cons_sep, splitChar_nil]
  | cons c xs ih =>
    by_cases hc : c = sep
    · subst hc
      rw [List.cons_append, splitChar_cons_sep, splitChar_cons_sep, ih]
      rfl
    · rw [List.cons_append, splitChar_cons_ne sep c _ hc, splitChar_cons_ne sep c _ hc, ih]
      obtain ⟨t, ts, he⟩ := List.exists_cons_of_ne_nil (splitChar_ne_nil sep xs)
      rw [he]
      simp

lemma not_sep_of_mem_splitChar (sep : Char) (cs : List Char) (l : List Char)
    (hl : l ∈ splitChar sep cs) : sep ∉ l := by
  induction cs generalizing l with
  | nil =>
    simp only [splitChar_nil, List.mem_singleton] at hl
    subst hl; simp
  | cons c cs ih =>
    by_cases hc : c = sep
    · subst hc
      rw [splitChar_cons_sep] at hl
      rcases List.mem_cons.mp hl with h | h
      · subst h; simp
      · exact ih l h
    · rw [splitChar_cons_ne sep c cs hc] at hl
      rcases List.mem_cons.mp hl with h | h
      · subst h
        intro hm
        rcases List.mem_cons.mp hm with h' | h'
        · exact hc h'.symm
        · exact ih _ (headI_mem_of_ne_nil _ (splitChar_ne_nil sep cs)) h'
      · exact ih l (List.mem_of_mem_tail h)

lemma mem_of_mem_splitChar (sep : Char) (cs : List Char) (l : List Char) (c : Char)
    (hl : l ∈ splitChar sep cs) (hc : c ∈ l) : c ∈ cs := by
  induction cs generalizing l with
  | nil =>
    simp only [splitChar_nil, List.mem_singleton] at hl
    subst hl; simp at hc
  | cons a cs ih =>
    by_cases ha : a = sep
    · subst ha
      rw [splitChar_cons_sep] at hl
      rcases List.mem_cons.mp hl with h | h
      · subst h; simp at hc
      · exact List.mem_cons_of_mem _ (ih l h hc)
    · rw [splitChar_cons_ne sep a cs ha] at hl
      rcases List.mem_cons.mp hl with h | h
      · subst h
        rcases List.mem_cons.mp hc with h' | h'
        · exact h' ▸ List.mem_cons_self a cs
        · exact List.mem_cons_of_mem _
            (ih _ (headI_mem_of_ne_nil _ (splitChar_ne_nil sep cs)) h')
      · exact List.mem_cons_of_mem _ (ih l (List.mem_of_mem_tail h) hc)

lemma joinSep_cons (sep : Char) (x : List Char) (ys : List (List Char)) (h : ys ≠ []) :
    joinSep sep (x :: ys) = x ++ sep :: joinSep sep ys := by
  cases ys with
  | nil => exact absurd rfl h
  | cons y ys => rfl

lemma splitChar_joinSep (sep : Char) (ls : List (List Char)) (hne : ls ≠ [])
    (hsep : ∀ l ∈ ls, sep ∉ l) : splitChar sep (joinSep sep ls) = ls := by
  induction ls with
  | nil => exact absurd rfl hne
  | cons x ls ih =>
    cases ls with
    | nil =>
      show splitChar sep (joinSep sep [x]) = [x]
      exact splitChar_of_not_mem sep x (hsep x (List.mem_cons_self x []))
    | cons y ys =>
      rw [joinSep_cons sep x (y :: ys) (List.cons_ne_nil y ys),
        splitChar_append_sep,
        splitChar_of_not_mem sep x (hsep x (List.mem_cons_self x _)),
        ih (List.cons_ne_nil y ys) (fun l hl => hsep l (List.mem_cons_of_mem _ hl))]
      rfl

lemma mem_joinSep (sep : Char) (ls : List (List Char)) (c : Char)
    (hc : c ∈ joinSep sep ls) : c = sep ∨ ∃ l ∈ ls, c ∈ l := by
  induction ls with
  | nil => simp [joinSep] at hc
  | cons x ls ih =>
    cases ls with
    | nil =>
      refine Or.inr ⟨x, List.mem_cons_self x [], ?_⟩
      exact hc
    | cons y ys =>
      rw [joinSep_cons sep x (y :: ys) (List.cons_ne_nil y ys)] at hc
      rcases List.mem_append.mp hc with h | h
      · exact Or.inr ⟨x, List.mem_cons_self x _, h⟩
      · rcases List.mem_cons.mp h with h' | h'
        · exact Or.inl h'
        · rcases ih h' with h2 | ⟨l, hl, hcl⟩
          · exact Or.inl h2
          · exact Or.inr ⟨l, List.mem_cons_of_mem _ hl, hcl⟩

/-! ### ASCII character case facts -/

lemma char_toNat_ofNat_of_lt (n : Nat) (h : n < 55296) : (Char.ofNat n).toNat = n := by
  unfold Char.ofNat
  rw [dif_pos (Or.inl h)]
  rfl

lemma char_isLower_iff (c : Char) : c.isLower = true ↔ 97 ≤ c.toNat ∧ c.toNat ≤ 122 := by
  simp [Char.isLower, Char.toNat, UInt32.le_def, BitVec.le_def, UInt32.toNat]

lemma char_isUpper_iff (c : Char) : c.isUpper = true ↔ 65 ≤ c.toNat ∧ c.toNat ≤ 90 := by
  simp [Char.isUpper, Char.toNat, UInt32.le_def, BitVec.le_def, UInt32.toNat]

lemma char_toUpper_of_lower (c : Char) (h : 97 ≤ c.toNat) (h2 : c.toNat ≤ 122) :
    c.toUpper = Char.ofNat (c.toNat - 32) := by
  simp only [Char.toUpper]
  rw [if_pos (by omega)]

lemma char_toLower_toUpper_of_lower (c : Char) (h : c.isLower = true) :
    c.toUpper.toLower = c := by
  rw [char_isLower_iff] at h
  rw [char_toUpper_of_lower c h.1 h.2]
  simp only [Char.toLower]
  rw [char_toNat_ofNat_of_lt _ (by omega), if_pos (by omega)]
  have e : c.toNat - 32 + 32 = c.toNat := by omega
  rw [e]
  exact Char.ofNat_toNat c

lemma char_isUpper_toUpper_of_lower (c : Char) (h : c.isLower = true) :
    c.toUpper.isUpper = true := by
  rw [char_isLower_iff] at h
  rw [char_toUpper_of_lower c h.1 h.2, char_isUpper_iff,
    char_toNat_ofNat_of_lt _ (by omega)]
  omega

lemma char_toLower_of_lower (c : Char) (h : c.isLower = true) : c.toLower = c := by
  rw [char_isLower_iff] at h
  simp only [Char.toLower]
  rw [if_neg (by omega)]

lemma char_not_isUpper_of_lower (c : Char) (h : c.isLower = true) : c.isUpper = false := by
  rw [char_isLower_iff] at h
  rw [← Bool.not_eq_true, char_isUpper_iff]
  omega

lemma char_lower_ne_underscore (c : Char) (h : c.isLower = true) : c ≠ '_' := by
  intro e
  subst e
  rw [char_isLower_iff] at h
  exact absurd h (by decide)

/-! ### IdentifierCaseConverter -/

lemma toList_mk (l : List Char) : (String.mk l).toList = l := rfl

lemma mk_toList (s : String) : String.mk s.toList = s := rfl

lemma mk_append (l1 l2 : List Char) : String.mk l1 ++ String.mk l2 = String.mk (l1 ++ l2) := rfl

/-- Python `str.capitalize`: first character uppercased, the rest lowercased
(ASCII model; CPython titlecases the first character, which agrees with
uppercasing on ASCII). -/
def pyCapitalize : List Char → List Char
  | [] => []
  | c :: cs => c.toUpper :: cs.map Char.toLower

/-- The per-segment expression `x.capitalize() or '_'` from `to_camel_case`:
Python `or` falls through to `'_'` exactly when the capitalized segment is the
empty (falsy) string. -/
def camelSeg (x : List Char) : List Char :=
  if pyCapitalize x = [] then ['_'] else pyCapitalize x

/-- `util.to_camel_case`:
`word.split('_')[0] + ''.join(x.capitalize() or '_' for x in word.split('_')[1:])`. -/
def to_camel_case (word : String) : String :=
  String.mk ((splitChar '_' word.toList).headI
    ++ (((splitChar '_' word.toList).tail).map camelSeg).flatten)

/-- `util.to_camel_capital_case`:
`''.join(x.capitalize() for x in word.split('_'))`. -/
def to_camel_capital_case (word : String) : String :=
  String.mk (((splitChar '_' word.toList).map pyCapitalize).flatten)

/-- The per-character expression `'_' + i.lower() if i.isupper() else i`
from `to_snake_case`. -/
def snakeChar (i : Char) : List Char :=
  if i.isUpper then ['_', i.toLower] else [i]

/-- `util.to_snake_case`:
`''.join(['_' + i.lower() if i.isupper() else i for i in word]).lstrip('_')`. -/
def to_snake_case (word : String) : String :=
  String.mk (((word.toList.map snakeChar).flatten).dropWhile (fun c => c = '_'))

lemma pyCapitalize_lower_word (c : Char) (cs : List Char)
    (hcs : ∀ x ∈ cs, x.isLower = true) : pyCapitalize (c :: cs) = c.toUpper :: cs := by
  have e : cs.map Char.toLower = cs.map id :=
    List.map_congr_left (fun x hx => char_toLower_of_lower x (hcs x hx))
  rw [pyCapitalize, e, List.map_id]

lemma snakeChar_of_lower (c : Char) (h : c.isLower = true) : snakeChar c = [c] := by
  simp [snakeChar, char_not_isUpper_of_lower c h]

lemma snakeFlat_of_lower (cs : List Char) (h : ∀ x ∈ cs, x.isLower = true) :
    (cs.map snakeChar).flatten = cs := by
  induction cs with
  | nil => rfl
  | cons c cs ih =>
    rw [List.map_cons, List.flatten_cons,
      snakeChar_of_lower c (h c (List.mem_cons_self c cs)),
      ih (fun x hx => h x (List.mem_cons_of_mem _ hx))]
    rfl

lemma snakeFlat_append (a b : List Char) :
    ((a ++ b).map snakeChar).flatten = (a.map snakeChar).flatten ++ (b.map snakeChar).flatten := by
  simp

lemma snakeFlat_capitalized_lower_word (c : Char) (cs : List Char)
    (hc : c.isLower = true) (hcs : ∀ x ∈ cs, x.isLower = true) :
    ((pyCapitalize (c :: cs)).map snakeChar).flatten = '_' :: c :: cs := by
  rw [pyCapitalize_lower_word c cs hcs, List.map_cons, List.flatten_cons,
    snakeFlat_of_lower cs hcs]
  simp only [snakeChar, char_isUpper_toUpper_of_lower c hc, if_pos,
    char_toLower_toUpper_of_lower c hc]
  rfl

lemma snakeFlat_capital_flatten (ws : List (List Char))
    (hw : ∀ w ∈ ws, w ≠ [] ∧ ∀ c ∈ w, c.isLower = true) :
    (((ws.map pyCapitalize).flatten).map snakeChar).flatten
      = (ws.map (fun w => '_' :: w)).flatten := by
  induction ws with
  | nil => rfl
  | cons w ws ih =>
    obtain ⟨hne, hlow⟩ := hw w (List.mem_cons_self w ws)
    obtain ⟨c, cs, rfl⟩ := List.exists_cons_of_ne_nil hne
    rw [List.map_cons, List.flatten_cons, snakeFlat_append,
      snakeFlat_capitalized_lower_word c cs (hlow c (List.mem_cons_self c cs))
        (fun x hx => hlow x (List.mem_cons_of_mem _ hx)),
      ih (fun x hx => hw x (List.mem_cons_of_mem _ hx)), List.map_cons, List.flatten_cons]

lemma underscore_join (w : List Char) (rest : List (List Char)) :
    w ++ (rest.map (fun x => '_' :: x)).flatten = joinSep '_' (w :: rest) := by
  induction rest generalizing w with
  | nil => simp [joinSep]
  | cons r rs ih =>
    rw [joinSep_cons _ _ _ (List.cons_ne_nil r rs), ← ih r, List.map_cons, List.flatten_cons]
    simp

/-- C4: for every string composed of non-empty lowercase words joined by
single underscores, `to_snake_case (to_camel_capital_case s) = s`. -/
theorem C4_snake_camel_capital_roundtrip (ws : List (List Char)) (hne : ws ≠ [])
    (hw : ∀ w ∈ ws, w ≠ [] ∧ ∀ c ∈ w, c.isLower = true) :
    to_snake_case (to_camel_capital_case (String.mk (joinSep '_' ws)))
      = String.mk (joinSep '_' ws) := by
  have hsep : ∀ l ∈ ws, ('_' : Char) ∉ l := by
    intro l hl hm
    exact char_lower_ne_underscore '_' ((hw l hl).2 '_' hm) rfl
  have hsplit : splitChar '_' (joinSep '_' ws) = ws := splitChar_joinSep _ _ hne hsep
  rw [to_camel_capital_case, toList_mk, hsplit, to_snake_case, toList_mk,
    snakeFlat_capital_flatten ws hw]
  obtain ⟨w, rest, rfl⟩ := List.exists_cons_of_ne_nil hne
  obtain ⟨hwne, hwlow⟩ := hw w (List.mem_cons_self w rest)
  obtain ⟨c, cs, rfl⟩ := List.exists_cons_of_ne_nil hwne
  rw [List.map_cons, List.flatten_cons]
  have hcne : decide (c = '_') = false :=
    decide_eq_false (char_lower_ne_underscore c (hwlow c (List.mem_cons_self c cs)))
  rw [show ('_' :: c :: cs) ++ (rest.map (fun x => '_' :: x)).flatten
      = '_' :: (c :: (cs ++ (rest.map (fun x => '_' :: x)).flatten)) by simp,
    List.dropWhile_cons_of_pos (by decide),
    List.dropWhile_cons_of_neg (by simp only [hcne]; exact Bool.false_ne_true),
    show c :: (cs ++ (rest.map (fun x => '_' :: x)).flatten)
      = (c :: cs) ++ (rest.map (fun x => '_' :: x)).flatten by simp,
    underscore_join]

/-- C4 witness: the round trip at the concrete input `"max_retry_count"`. -/
theorem C4_witness :
    to_snake_case (to_camel_capital_case (String.mk (joinSep '_'
        [['m','a','x'], ['r','e','t','r','y'], ['c','o','u','n','t']])))
      = String.mk (joinSep '_' [['m','a','x'], ['r','e','t','r','y'], ['c','o','u','n','t']]) :=
  C4_snake_camel_capital_roundtrip
    [['m','a','x'], ['r','e','t','r','y'], ['c','o','u','n','t']]
    (by decide) (by decide)

lemma dropWhile_underscore_take_one (l : List Char) :
    (l.dropWhile (fun c => c = '_')).take 1 ≠ ['_'] := by
  induction l with
  | nil => simp
  | cons c cs ih =>
    by_cases hc : c = '_'
    · subst hc
      rw [List.dropWhile_cons_of_pos (by decide)]
      exact ih
    · rw [List.dropWhile_cons_of_neg (by simp [hc])]
      simp [hc]

/-- C5 counterexample: `to_snake_case "_a"` strips the leading underscore even
though the very first character of the input, `'_'`, is not uppercase; the
claim says such an input has no leading underscore stripped. -/
theorem C5_counterexample_lstrip_unconditional :
    to_snake_case "_a" = "a" ∧ ('_').isUpper = false ∧ to_snake_case "_a" ≠ "_a" := by
  decide

/-- C5 (amended): `to_snake_case` inserts `_` before every uppercase character
and lowercases it, then strips ALL leading underscores from the result,
whether they were inserted before an uppercase first character or already
present in the input.  Consequently (1) the result never begins with `_`;
(2) for an input whose first character is neither uppercase nor `_`, nothing
is stripped and the result is exactly the per-character expansion; (3) a
leading `_` of the input is always stripped, regardless of what follows. -/
theorem C5_snake_strips_all_leading_underscores :
    (∀ w : String, (to_snake_case w).toList.take 1 ≠ ['_'])
    ∧ (∀ (c : Char) (rest : List Char), c.isUpper = false → c ≠ '_' →
        to_snake_case (String.mk (c :: rest))
          = String.mk (c :: (rest.map snakeChar).flatten))
    ∧ (∀ s : String, to_snake_case (String.mk ('_' :: s.toList)) = to_snake_case s) := by
  refine ⟨?_, ?_, ?_⟩
  · intro w
    rw [to_snake_case, toList_mk]
    exact dropWhile_underscore_take_one _
  · intro c rest hup hne
    rw [to_snake_case, toList_mk, List.map_cons, List.flatten_cons,
      show snakeChar c = [c] by simp [snakeChar, hup], List.singleton_append,
      List.dropWhile_cons_of_neg (by simp [hne])]
  · intro s
    rw [to_snake_case, to_snake_case, toList_mk, List.map_cons, List.flatten_cons,
      show snakeChar '_' = ['_'] by decide, List.singleton_append,
      List.dropWhile_cons_of_pos (by decide)]

/-- C5 witness: the amended claim applied at concrete inputs: `"aBc"` has a
non-underscore, non-uppercase first character so nothing is stripped, and a
leading underscore of `"_X"` is stripped. -/
theorem C5_witness :
    to_snake_case (String.mk ('a' :: ['B', 'c']))
        = String.mk ('a' :: (['B', 'c'].map snakeChar).flatten)
      ∧ to_snake_case (String.mk ('_' :: "X".toList)) = to_snake_case "X" :=
  ⟨C5_snake_strips_all_leading_underscores.2.1 'a' ['B', 'c'] (by decide) (by decide),
    C5_snake_strips_all_leading_underscores.2.2 "X"⟩

/-- C6 counterexample: the tail of a segment is NOT left unchanged: the
segment `"bC"` of `"a_bC"` contributes `"Bc"` (Python `str.capitalize`
lowercases everything after the first character), not `"BC"` as the claim
states. -/
theorem C6_counterexample_capitalize_lowercases_tail :
    to_camel_case "a_bC" = "aBc" ∧ to_camel_case "a_bC" ≠ "aBC" := by
  decide

/-- C6 (amended): `to_camel_case` splits on `_` and keeps the first segment
unchanged; each subsequent non-empty segment is capitalized in the Python
sense: its first character is uppercased and the REST OF THE SEGMENT IS
LOWERCASED (so a segment `"bC"` contributes `"Bc"`, not `"BC"`), all
concatenated with no separator. -/
theorem C6_camel_case_segment_contribution :
    (∀ s : String, ('_' : Char) ∉ s.toList → to_camel_case s = s)
    ∧ (∀ (a : String) (c : Char) (cs : List Char), ('_' : Char) ∉ c :: cs →
        to_camel_case (String.mk (a.toList ++ '_' :: c :: cs))
          = to_camel_case a ++ String.mk (c.toUpper :: cs.map Char.toLower)) := by
  constructor
  · intro s hs
    rw [to_camel_case, splitChar_of_not_mem '_' s.toList hs]
    simp [mk_toList]
  · intro a c cs hb
    rw [to_camel_case, toList_mk, splitChar_append_sep,
      splitChar_of_not_mem '_' (c :: cs) hb]
    obtain ⟨t, ts, he⟩ := List.exists_cons_of_ne_nil (splitChar_ne_nil '_' a.toList)
    rw [he]
    simp only [List.cons_append, List.headI_cons, List.tail_cons, List.map_append,
      List.flatten_append]
    rw [show ([c :: cs].map camelSeg).flatten = camelSeg (c :: cs) by simp,
      show camelSeg (c :: cs) = c.toUpper :: cs.map Char.toLower by
        simp [camelSeg, pyCapitalize],
      to_camel_case, he, mk_append]
    simp

/-- C6 witness: the amended claim applied at `"a" ++ "_" ++ "bC"`. -/
theorem C6_witness :
    to_camel_case (String.mk ("a".toList ++ '_' :: 'b' :: ['C']))
      = to_camel_case "a" ++ String.mk ('b'.toUpper :: ['C'].map Char.toLower) :=
  C6_camel_case_segment_contribution.2 "a" 'b' ['C'] (by decide)

/-- C7: in `to_camel_case` an empty segment between consecutive underscores
contributes a literal `_` (so `to_camel_case "a__b" = "a_B"`), and in
`to_camel_capital_case` an empty segment contributes nothing (inserting `__`
in place of `_` leaves the capital-case result unchanged). -/
theorem C7_empty_segment_quirk :
    to_camel_case "a__b" = "a_B"
    ∧ (∀ a b : String, to_camel_case (String.mk (a.toList ++ '_' :: '_' :: b.toList))
        = to_camel_case a ++ "_" ++ String.mk (((splitChar '_' b.toList).map camelSeg).flatten))
    ∧ (∀ a b : String, to_camel_capital_case (String.mk (a.toList ++ '_' :: '_' :: b.toList))
        = to_camel_capital_case (String.mk (a.toList ++ '_' :: b.toList))) := by
  refine ⟨by decide, ?_, ?_⟩
  · intro a b
    rw [to_camel_case, toList_mk, splitChar_append_sep, splitChar_cons_sep]
    obtain ⟨t, ts, he⟩ := List.exists_cons_of_ne_nil (splitChar_ne_nil '_' a.toList)
    rw [he]
    simp only [List.cons_append, List.headI_cons, List.tail_cons, List.map_cons,
      List.map_append, List.flatten_append, List.flatten_cons]
    rw [show camelSeg [] = ['_'] by rfl, to_camel_case, he]
    rw [show ("_" : String) = String.mk ['_'] by rfl, mk_append, mk_append]
    simp
  · intro a b
    simp only [to_camel_capital_case, toList_mk]
    rw [splitChar_append_sep, splitChar_cons_sep, splitChar_append_sep]
    simp [pyCapitalize]

/-! ### PathResolver: stringify_path, get_path_as_uri -/

/-- The pieces of the process environment that the POSIX path functions read:
the current working directory (`os.getcwd()`), the `HOME` environment
variable, the current user's password-database home directory (used by
`expanduser` when `HOME` is unset), and the password-database lookup for
`~user` forms. -/
structure PyOsEnv where
  cwd : String
  home : Option String
  curHome : Option String
  pwdHome : String → Option String

/-- The classification of `stringify_path` inputs that the source branches on:
a `str`, a non-`str` value exposing `__fspath__` (whose `os.fspath` result is
the carried string), or anything else. -/
inductive PathInput where
  | str (s : String)
  | fspath (s : String)
  | other
deriving DecidableEq

/-- The exceptions raised in the modelled fragment: `CspPathAttributeError`
(from `spark_rapids_tools.exceptions`) and `ValueError` (from
`PurePath.as_uri` on a non-absolute path). -/
inductive PyError where
  | cspPathAttributeError (msg : String)
  | valueError (msg : String)
deriving DecidableEq

instance exceptDecEq {e a : Type} [DecidableEq e] [DecidableEq a] :
    DecidableEq (Except e a) := fun x y =>
  match x, y with
  | .ok v, .ok w =>
    if h : v = w then .isTrue (congrArg Except.ok h)
    else .isFalse (fun q => h (Except.ok.inj q))
  | .error v, .error w =>
    if h : v = w then .isTrue (congrArg Except.error h)
    else .isFalse (fun q => h (Except.error.inj q))
  | .ok _, .error _ => .isFalse (fun q => Except.noConfusion q)
  | .error _, .ok _ => .isFalse (fun q => Except.noConfusion q)

/-- Python `str.rstrip('/')` on a character list. -/
def rstripSlash (l : List Char) : List Char :=
  (l.reverse.dropWhile (fun c => c = '/')).reverse

/-- CPython `posixpath.expanduser`: if the path does not start with `~`,
return it unchanged; otherwise split off the `~` or `~user` head (up to the
first `/`), resolve the user's home directory (from `HOME`, the current
user's password-database entry when `HOME` is unset, or the named user's
entry), returning the path unchanged when the lookup fails; finally strip
trailing slashes from the home directory and splice in the remainder,
falling back to `/` when the result would be empty. -/
def expanduser (env : PyOsEnv) (path : String) : String :=
  let cs := path.toList
  if cs.take 1 ≠ ['~'] then path
  else
    let i := (cs.drop 1).findIdx (fun c => c = '/') + 1
    let userhome? : Option String :=
      if i = 1 then
        match env.home with
        | some h => some h
        | none => env.curHome
      else env.pwdHome (String.mk ((cs.drop 1).take (i - 1)))
    match userhome? with
    | none => path
    | some uh =>
      let r := rstripSlash uh.toList ++ cs.drop i
      if r = [] then "/" else String.mk r

/-- CPython `posixpath.join` for two arguments: if `b` is absolute, it
replaces `a`; otherwise `b` is appended, inserting a `/` unless `a` is empty
or already ends with one. -/
def pyJoin (a b : String) : String :=
  if b.toList.take 1 = ['/'] then b
  else if a.toList = [] ∨ a.toList.getLast? = some '/' then String.mk (a.toList ++ b.toList)
  else String.mk (a.toList ++ '/' :: b.toList)

/-- One step of the component loop inside CPython `posixpath.normpath`:
empty and `.` components are dropped; `..` pops the previous component except
at the root or after an unresolved leading `..` of a relative path. -/
def normStep (initialSlashes : Nat) (acc : List (List Char)) (comp : List Char) :
    List (List Char) :=
  if comp = [] ∨ comp = ['.'] then acc
  else if comp ≠ ['.', '.'] ∨ (initialSlashes = 0 ∧ acc = [])
      ∨ acc.getLast? = some ['.', '.'] then
    acc ++ [comp]
  else acc.dropLast

/-- The `initial_slashes` count of CPython `posixpath.normpath`: 1 for a
leading slash, 2 for exactly two leading slashes (POSIX treats `//` as
special), 0 otherwise. -/
def initialSlashesOf (cs : List Char) : Nat :=
  if cs.take 1 = ['/'] then
    if cs.take 2 = ['/', '/'] ∧ cs.take 3 ≠ ['/', '/', '/'] then 2 else 1
  else 0

/-- CPython `posixpath.normpath` on a character list: records the initial
slashes, splits on `/`, folds the components through `normStep`, and joins
back behind the initial slashes, returning `.` for an empty result. -/
def normpathList (cs : List Char) : List Char :=
  if cs = [] then ['.']
  else if List.replicate (initialSlashesOf cs) '/'
      ++ joinSep '/' ((splitChar '/' cs).foldl (normStep (initialSlashesOf cs)) []) = [] then
    ['.']
  else
    List.replicate (initialSlashesOf cs) '/'
      ++ joinSep '/' ((splitChar '/' cs).foldl (normStep (initialSlashesOf cs)) [])

/-- CPython `posixpath.normpath` on strings. -/
def normpath (path : String) : String := String.mk (normpathList path.toList)

/-- CPython `posixpath.abspath`: join a non-absolute path onto the current
working directory, then normalize. -/
def abspath (env : PyOsEnv) (path : String) : String :=
  if path.toList.take 1 = ['/'] then normpath path
  else normpath (pyJoin env.cwd path)

/-- `util.stringify_path`: a `str` is used as is, a value exposing
`__fspath__` is converted via `os.fspath`, anything else raises
`CspPathAttributeError('Not a valid path')`; the accepted value is then
user-expanded and made absolute. -/
def stringify_path (env : PyOsEnv) (fpath : PathInput) : Except PyError String :=
  match fpath with
  | .str s => .ok (abspath env (expanduser env s))
  | .fspath s => .ok (abspath env (expanduser env s))
  | .other => .error (.cspPathAttributeError "Not a valid path")

/-- A Python `\w` word character, restricted to ASCII: letters, digits or
underscore. -/
def isWordChar (c : Char) : Bool := c.isAlphanum || c = '_'

/-- The test `re.match(r'\w+://', fpath)` from `get_path_as_uri`: a non-empty
run of word characters at the start of the string, immediately followed by
`://`.  Greedy matching is equivalent to backtracking here because `:` and
`/` are not word characters. -/
def matchesUriScheme (s : String) : Bool :=
  let cs := s.toList
  let w := cs.takeWhile isWordChar
  decide (w ≠ []) && decide ((cs.drop w.length).take 3 = [':', '/', '/'])

/-- Percent-encoding of one character as in `urllib.parse.quote` with the
default safe set plus `/` (ASCII model, as used by `PurePath.as_uri`). -/
def quoteChar (c : Char) : List Char :=
  if c.isAlphanum || c = '_' || c = '.' || c = '-' || c = '~' || c = '/' then [c]
  else ['%', Char.ofNat (if c.toNat / 16 % 16 < 10 then 48 + c.toNat / 16 % 16 else 55 + c.toNat / 16 % 16),
    Char.ofNat (if c.toNat % 16 < 10 then 48 + c.toNat % 16 else 55 + c.toNat % 16)]

/-- `pathlib.PurePath.as_uri` on a POSIX path: `file://` plus the
percent-encoded path; raises `ValueError` when the path is not absolute. -/
def as_uri (p : String) : Except PyError String :=
  if p.toList.take 1 = ['/'] then
    .ok (String.mk ("file://".toList ++ (p.toList.map quoteChar).flatten))
  else .error (.valueError "relative path cannot be expressed as a file URI")

/-- `util.get_path_as_uri`: a string already matching the generic URI pattern
is returned unchanged; otherwise it is resolved as a local path via
`stringify_path` and converted to a `file://` URI. -/
def get_path_as_uri (env : PyOsEnv) (fpath : String) : Except PyError String :=
  if matchesUriScheme fpath then .ok fpath
  else
    match stringify_path env (.str fpath) with
    | .error e => .error e
    | .ok local_path => as_uri local_path

/-- C1: a string matching the generic URI pattern is returned unchanged by
`get_path_as_uri`, and consequently `get_path_as_uri` is idempotent on such
inputs. -/
theorem C1_get_path_as_uri_id_on_uris (env : PyOsEnv) (x : String)
    (h : matchesUriScheme x = true) :
    get_path_as_uri env x = Except.ok x
    ∧ (get_path_as_uri env x).bind (get_path_as_uri env) = get_path_as_uri env x := by
  have h1 : get_path_as_uri env x = Except.ok x := by rw [get_path_as_uri, if_pos h]
  refine ⟨h1, ?_⟩
  rw [h1]
  show get_path_as_uri env x = Except.ok x
  exact h1

/-- C1 witness: the concrete URI `"s3://bucket/data"` is returned unchanged. -/
theorem C1_witness :
    matchesUriScheme "s3://bucket/data" = true
    ∧ get_path_as_uri ⟨"/", some "/home/u", none, fun _ => none⟩ "s3://bucket/data"
        = Except.ok "s3://bucket/data" :=
  ⟨by decide,
    (C1_get_path_as_uri_id_on_uris ⟨"/", some "/home/u", none, fun _ => none⟩
      "s3://bucket/data" (by decide)).1⟩

/-! ### Properties of the normpath fold -/

lemma foldl_normStep_mem (k : Nat) (comps : List (List Char)) (acc : List (List Char))
    (x : List Char) (hx : x ∈ comps.foldl (normStep k) acc) : x ∈ acc ∨ x ∈ comps := by
  induction comps generalizing acc with
  | nil => exact Or.inl hx
  | cons comp comps ih =>
    rw [List.foldl_cons] at hx
    rcases ih (normStep k acc comp) hx with h | h
    · unfold normStep at h
      split at h
      · exact Or.inl h
      · split at h
        · rcases List.mem_append.mp h with h' | h'
          · exact Or.inl h'
          · rw [List.mem_singleton] at h'
            exact Or.inr (h' ▸ List.mem_cons_self comp comps)
        · exact Or.inl (List.dropLast_subset acc h)
    · exact Or.inr (List.mem_cons_of_mem _ h)

lemma foldl_normStep_inv (k : Nat) (hk : k ≠ 0) (comps0 : List (List Char))
    (comps : List (List Char)) (acc : List (List Char))
    (hsub : ∀ x ∈ comps, x ∈ comps0)
    (hacc : ∀ x ∈ acc, (x ≠ [] ∧ x ≠ ['.'] ∧ x ≠ ['.', '.']) ∧ x ∈ comps0) :
    ∀ x ∈ comps.foldl (normStep k) acc,
      (x ≠ [] ∧ x ≠ ['.'] ∧ x ≠ ['.', '.']) ∧ x ∈ comps0 := by
  induction comps generalizing acc with
  | nil => exact hacc
  | cons comp comps ih =>
    rw [List.foldl_cons]
    refine ih (normStep k acc comp) (fun x hx => hsub x (List.mem_cons_of_mem _ hx)) ?_
    intro x hx
    unfold normStep at hx
    split at hx
    · exact hacc x hx
    · rename_i hg
      split at hx
      · rename_i hcond
        rcases List.mem_append.mp hx with h | h
        · exact hacc x h
        · rw [List.mem_singleton] at h
          subst h
          push_neg at hg
          refine ⟨⟨hg.1, hg.2, ?_⟩, hsub x (List.mem_cons_self x comps)⟩
          intro hdd
          rcases hcond with h1 | h2 | h3
          · exact h1 hdd
          · exact hk h2.1
          · exact ((hacc _ (List.mem_of_getLast?_eq_some h3)).1.2.2) rfl
      · exact hacc x (List.dropLast_subset acc hx)

lemma splitChar_replicate_append (sep : Char) (k : Nat) (l : List Char) :
    splitChar sep (List.replicate k sep ++ l) = List.replicate k [] ++ splitChar sep l := by
  induction k with
  | zero => simp
  | succ k ih =>
    rw [List.replicate_succ, List.cons_append, splitChar_cons_sep, ih, List.replicate_succ]
    rfl

lemma initialSlashesOf_ne_zero (cs : List Char) (h : cs.take 1 = ['/']) :
    initialSlashesOf cs ≠ 0 := by
  rw [initialSlashesOf, if_pos h]
  split <;> simp

lemma take_one_append (l m : List Char) (c : Char) (h : l.take 1 = [c]) :
    (l ++ m).take 1 = [c] := by
  cases l with
  | nil => simp at h
  | cons a t => simpa using h

lemma replicate_slash_take_one (k : Nat) (hk : k ≠ 0) (l : List Char) :
    (List.replicate k '/' ++ l).take 1 = ['/'] := by
  cases k with
  | zero => exact absurd rfl hk
  | succ k => rw [List.replicate_succ]; rfl

/-- For an absolute input, `normpathList` yields an absolute path none of
whose `/`-separated segments is `.` or `..`. -/
lemma normpathList_absolute (cs : List Char) (h : cs.take 1 = ['/']) :
    (normpathList cs).take 1 = ['/']
    ∧ ∀ seg ∈ splitChar '/' (normpathList cs), seg ≠ ['.'] ∧ seg ≠ ['.', '.'] := by
  have hne : cs ≠ [] := by intro e; subst e; simp at h
  have hk : initialSlashesOf cs ≠ 0 := initialSlashesOf_ne_zero cs h
  have hjoin_ne : List.replicate (initialSlashesOf cs) '/'
      ++ joinSep '/' ((splitChar '/' cs).foldl (normStep (initialSlashesOf cs)) []) ≠ [] := by
    intro e
    have := replicate_slash_take_one (initialSlashesOf cs) hk
      (joinSep '/' ((splitChar '/' cs).foldl (normStep (initialSlashesOf cs)) []))
    rw [e] at this
    simp at this
  have hval : normpathList cs = List.replicate (initialSlashesOf cs) '/'
      ++ joinSep '/' ((splitChar '/' cs).foldl (normStep (initialSlashesOf cs)) []) := by
    rw [normpathList, if_neg hne, if_neg hjoin_ne]
  have hinv := foldl_normStep_inv (initialSlashesOf cs) hk (splitChar '/' cs)
    (splitChar '/' cs) [] (fun x hx => hx) (fun x hx => absurd hx (List.not_mem_nil x))
  constructor
  · rw [hval]
    exact replicate_slash_take_one _ hk _
  · intro seg hseg
    rw [hval, splitChar_replicate_append] at hseg
    rcases List.mem_append.mp hseg with hrep | hjoin
    · have := List.eq_of_mem_replicate hrep
      subst this
      exact ⟨by simp, by simp⟩
    · set ncs := (splitChar '/' cs).foldl (normStep (initialSlashesOf cs)) [] with hncs
      by_cases hn : ncs = []
      · rw [hn] at hjoin
        simp only [joinSep, splitChar_nil, List.mem_singleton] at hjoin
        subst hjoin
        exact ⟨by simp, by simp⟩
      · rw [splitChar_joinSep '/' ncs hn
          (fun l hl => not_sep_of_mem_splitChar '/' cs l ((hinv l hl).2))] at hjoin
        have := (hinv seg hjoin).1
        exact ⟨this.2.1, this.2.2⟩

/-- Every character of `normpathList cs` is a slash, a dot, or a character of
the input. -/
lemma mem_normpathList (cs : List Char) (c : Char) (hc : c ∈ normpathList cs) :
    c = '/' ∨ c = '.' ∨ c ∈ cs := by
  rw [normpathList] at hc
  split at hc
  · rw [List.mem_singleton] at hc; exact Or.inr (Or.inl hc)
  · split at hc
    · rw [List.mem_singleton] at hc; exact Or.inr (Or.inl hc)
    · rcases List.mem_append.mp hc with hrep | hjoin
      · exact Or.inl (List.eq_of_mem_replicate hrep)
      · rcases mem_joinSep '/' _ c hjoin with h | ⟨l, hl, hcl⟩
        · exact Or.inl h
        · rcases foldl_normStep_mem _ _ _ l hl with h | h
          · exact absurd h (List.not_mem_nil l)
          · exact Or.inr (Or.inr (mem_of_mem_splitChar '/' cs l c h hcl))

lemma pyJoin_absolute (a b : String) (ha : a.toList.take 1 = ['/']) :
    (pyJoin a b).toList.take 1 = ['/'] := by
  rw [pyJoin]
  split
  · assumption
  · split
    · rw [toList_mk]; exact take_one_append _ _ _ ha
    · rw [toList_mk]; exact take_one_append _ _ _ ha

lemma mem_pyJoin (a b : String) (c : Char) (hc : c ∈ (pyJoin a b).toList) :
    c ∈ a.toList ∨ c = '/' ∨ c ∈ b.toList := by
  rw [pyJoin] at hc
  split at hc
  · exact Or.inr (Or.inr hc)
  · split at hc
    · rw [toList_mk] at hc
      rcases List.mem_append.mp hc with h | h
      · exact Or.inl h
      · exact Or.inr (Or.inr h)
    · rw [toList_mk] at hc
      rcases List.mem_append.mp hc with h | h
      · exact Or.inl h
      · rcases List.mem_cons.mp h with h' | h'
        · exact Or.inr (Or.inl h')
        · exact Or.inr (Or.inr h')

/-- With an absolute working directory, `abspath` always yields an absolute
path none of whose segments is `.` or `..`. -/
lemma abspath_absolute (env : PyOsEnv) (p : String)
    (hcwd : env.cwd.toList.take 1 = ['/']) :
    (abspath env p).toList.take 1 = ['/']
    ∧ ∀ seg ∈ splitChar '/' (abspath env p).toList, seg ≠ ['.'] ∧ seg ≠ ['.', '.'] := by
  rw [abspath]
  split
  · rename_i h
    exact normpathList_absolute p.toList h
  · exact normpathList_absolute (pyJoin env.cwd p).toList (pyJoin_absolute env.cwd p hcwd)

lemma mem_abspath (env : PyOsEnv) (p : String) (c : Char)
    (hc : c ∈ (abspath env p).toList) :
    c = '/' ∨ c = '.' ∨ c ∈ p.toList ∨ c ∈ env.cwd.toList := by
  rw [abspath] at hc
  split at hc
  · rcases mem_normpathList p.toList c hc with h | h | h
    · exact Or.inl h
    · exact Or.inr (Or.inl h)
    · exact Or.inr (Or.inr (Or.inl h))
  · rcases mem_normpathList (pyJoin env.cwd p).toList c hc with h | h | h
    · exact Or.inl h
    · exact Or.inr (Or.inl h)
    · rcases mem_pyJoin env.cwd p c h with h' | h' | h'
      · exact Or.inr (Or.inr (Or.inr h'))
      · exact Or.inl h'
      · exact Or.inr (Or.inr (Or.inl h'))

lemma mem_rstripSlash (l : List Char) (c : Char) (hc : c ∈ rstripSlash l) : c ∈ l := by
  rw [rstripSlash] at hc
  rw [List.mem_reverse] at hc
  have := List.dropWhile_subset (fun c => c = '/') hc
  rwa [List.mem_reverse] at this

/-- Expanding a pure leading-tilde path (with `HOME` set) leaves no tilde in
the result when neither the home directory nor the remainder contains one. -/
lemma expanduser_tilde_no_tilde (env : PyOsEnv) (h rest : String)
    (hh : env.home = some h) (hht : ('~' : Char) ∉ h.toList)
    (hrt : ('~' : Char) ∉ rest.toList)
    (hr : rest.toList.take 1 = ['/'] ∨ rest = "") :
    ('~' : Char) ∉ (expanduser env (String.mk ('~' :: rest.toList))).toList := by
  have hi : List.findIdx (fun c => c = '/')
      (List.drop 1 (String.mk ('~' :: rest.toList)).toList) + 1 = 1 := by
    show List.findIdx (fun c => c = '/') rest.toList + 1 = 1
    rcases hr with h1 | h1
    · cases hrl : rest.toList with
      | nil => simp
      | cons a t =>
        rw [hrl] at h1
        have ha : a = '/' := by simpa using h1
        simp [List.findIdx_cons, ha]
    · rw [h1]; rfl
  rw [expanduser]
  rw [if_neg (by simp), hi, hh]
  show ('~' : Char) ∉
    (if rstripSlash h.toList ++ List.drop 1 ('~' :: rest.toList) = [] then "/"
      else String.mk (rstripSlash h.toList ++ List.drop 1 ('~' :: rest.toList))).toList
  have hd : List.drop 1 ('~' :: rest.toList) = rest.toList := rfl
  rw [hd]
  split
  · intro hm
    exact absurd hm (by decide)
  · rw [toList_mk]
    intro hm
    rcases List.mem_append.mp hm with hm1 | hm2
    · exact hht (mem_rstripSlash h.toList '~' hm1)
    · exact hrt hm2

/-- C2 counterexample: a `~` that is not the leading character survives
`stringify_path` unexpanded: on input `"/x/~"` the result still contains
`~`, refuting the claim that for all paths containing `~` (anywhere) the
result has `~` fully expanded. -/
theorem C2_counterexample_inner_tilde_kept :
    stringify_path ⟨"/", some "/home/u", none, fun _ => none⟩ (PathInput.str "/x/~")
        = Except.ok "/x/~"
      ∧ ('~' : Char) ∈ ("/x/~" : String).toList := by
  constructor
  · decide
  · decide

/-- C2 (amended): `stringify_path` raises `CspPathAttributeError` exactly on
inputs that are neither a string nor expose `__fspath__`; on accepted inputs
(with an absolute working directory) it returns an absolute path with no `.`
or `..` segments; and a LEADING `~` (with `HOME` set) is expanded to the
user's home directory, so that no `~` remains — but a `~` elsewhere in the
path is preserved, not expanded. -/
theorem C2_stringify_path_contract :
    (∀ (env : PyOsEnv) (inp : PathInput),
        (∃ e, stringify_path env inp = Except.error e) ↔ inp = PathInput.other)
    ∧ (∀ (env : PyOsEnv) (inp : PathInput) (s : String),
        env.cwd.toList.take 1 = ['/'] → stringify_path env inp = Except.ok s →
          s.toList.take 1 = ['/']
          ∧ ∀ seg ∈ splitChar '/' s.toList, seg ≠ ['.'] ∧ seg ≠ ['.', '.'])
    ∧ (∀ (env : PyOsEnv) (h rest s : String),
        env.home = some h → ('~' : Char) ∉ h.toList → ('~' : Char) ∉ env.cwd.toList →
        ('~' : Char) ∉ rest.toList → (rest.toList.take 1 = ['/'] ∨ rest = "") →
        stringify_path env (PathInput.str (String.mk ('~' :: rest.toList))) = Except.ok s →
        ('~' : Char) ∉ s.toList) := by
  refine ⟨?_, ?_, ?_⟩
  · intro env inp
    constructor
    · rintro ⟨e, he⟩
      cases inp with
      | str s => simp [stringify_path] at he
      | fspath s => simp [stringify_path] at he
      | other => rfl
    · rintro rfl
      exact ⟨PyError.cspPathAttributeError "Not a valid path", rfl⟩
  · intro env inp s hcwd hok
    cases inp with
    | str s0 =>
      have hs : s = abspath env (expanduser env s0) := by
        simpa [stringify_path] using hok.symm
      subst hs
      exact abspath_absolute env _ hcwd
    | fspath s0 =>
      have hs : s = abspath env (expanduser env s0) := by
        simpa [stringify_path] using hok.symm
      subst hs
      exact abspath_absolute env _ hcwd
    | other => simp [stringify_path] at hok
  · intro env h rest s hh hht hct hrt hr hok
    have hs : s = abspath env (expanduser env (String.mk ('~' :: rest.toList))) := by
      simpa [stringify_path] using hok.symm
    subst hs
    intro hmem
    rcases mem_abspath env _ '~' hmem with h1 | h1 | h1 | h1
    · exact absurd h1 (by decide)
    · exact absurd h1 (by decide)
    · exact expanduser_tilde_no_tilde env h rest hh hht hrt hr h1
    · exact hct h1

/-- C2 witness: the amended contract at concrete inputs: a non-path value
errors, `"a/./../b"` resolves (with cwd `/`) to the absolute dot-free
`"/b"`, and `"~/x"` (with `HOME=/home/u`) resolves to `"/home/u/x"` with the
tilde expanded away. -/
theorem C2_witness :
    (∃ e, stringify_path ⟨"/", some "/home/u", none, fun _ => none⟩ PathInput.other
        = Except.error e)
    ∧ ("/b" : String).toList.take 1 = ['/']
    ∧ ('~' : Char) ∉ ("/home/u/x" : String).toList :=
  ⟨(C2_stringify_path_contract.1 ⟨"/", some "/home/u", none, fun _ => none⟩
      PathInput.other).mpr rfl,
    (C2_stringify_path_contract.2.1 ⟨"/", some "/home/u", none, fun _ => none⟩
      (PathInput.str "a/./../b") "/b" (by decide) (by decide)).1,
    C2_stringify_path_contract.2.2 ⟨"/", some "/home/u", none, fun _ => none⟩
      "/home/u" "/x" "/home/u/x" rfl (by decide) (by decide) (by decide)
      (Or.inl (by decide)) (by decide)⟩

/-! ### is_http_file -/

/-- The dynamically-typed argument of `is_http_file`: a string, or any
non-string value (which HTTP-URL validation rejects). -/
inductive PyValue where
  | str (s : String)
  | nonStr
deriving DecidableEq

/-- A parsed HTTP/HTTPS URL: scheme, host, and the remaining
path/query/fragment text. -/
structure HttpUrl where
  scheme : String
  host : String
  rest : String
deriving DecidableEq

/-- Modelled from the spec: the external pydantic validation
`TypeAdapter(AnyHttpUrl).validate_python(value)` used by `is_http_file` is
not part of this repository; per the spec it accepts exactly well-formed
HTTP/HTTPS URLs (scheme `http` or `https`, a non-empty host, optional
path/query) and reports every failure as a `ValidationError`. -/
def validateHttpUrl : PyValue → Except String HttpUrl
  | .nonStr => .error "URL input should be a string or URL"
  | .str s =>
    let cs := s.toList
    let schemeChars := cs.takeWhile (fun c => c.isAlpha)
    if schemeChars = [] then .error "input is not a valid URL"
    else if (cs.drop schemeChars.length).take 3 ≠ [':', '/', '/'] then
      .error "input is not a valid URL"
    else if String.mk schemeChars ≠ "http" ∧ String.mk schemeChars ≠ "https" then
      .error "URL scheme should be http or https"
    else
      let afterScheme := cs.drop (schemeChars.length + 3)
      let hostChars := afterScheme.takeWhile
        (fun c => !(c == '/' || c == '?' || c == '#' || c == ':'))
      if hostChars = [] then .error "URL host required"
      else .ok ⟨String.mk schemeChars, String.mk hostChars,
        String.mk (afterScheme.drop hostChars.length)⟩

/-- `util.is_http_file`: try the validation and fold success into `True` and
`ValidationError` into `False`. -/
def is_http_file (value : PyValue) : Bool :=
  match validateHttpUrl value with
  | .ok _ => true
  | .error _ => false

/-- C3: `is_http_file` is total (every validation failure is folded into
`false`, so no input raises), it returns `true` exactly on values that
validate as well-formed HTTP/HTTPS URLs, and on the three concrete examples
it returns `true`, `false`, `false`. -/
theorem C3_is_http_file_total_and_examples :
    (∀ v : PyValue, is_http_file v = true ↔ ∃ u, validateHttpUrl v = Except.ok u)
    ∧ (∀ (v : PyValue) (e : String), validateHttpUrl v = Except.error e →
        is_http_file v = false)
    ∧ is_http_file (PyValue.str "https://example.com/path") = true
    ∧ is_http_file (PyValue.str "/etc/hosts") = false
    ∧ is_http_file (PyValue.str "ftp:/bad") = false := by
  refine ⟨?_, ?_, by decide, by decide, by decide⟩
  · intro v
    rw [is_http_file]
    constructor
    · intro h
      split at h
      · rename_i u hu
        exact ⟨u, hu⟩
      · exact absurd h (by simp)
    · rintro ⟨u, hu⟩
      rw [hu]
  · intro v e he
    rw [is_http_file, he]

/-- C3 witness: the never-raises clause applied at the concrete malformed
input `"/etc/hosts"`, whose validation error is folded into `false`. -/
theorem C3_witness :
    is_http_file (PyValue.str "/etc/hosts") = false :=
  C3_is_http_file_total_and_examples.2.1 (PyValue.str "/etc/hosts")
    "input is not a valid URL" (by decide)

/-! ### RuntimeBootstrap: init_environment -/

/-- Modelled from the spec: the process-wide environment store written
through `Utils.set_rapids_tools_env(k, v)`, a mutable key-value map of
string keys to string values (the tool-specific key prefix is abstracted
away); represented as an association list where the most recent write wins. -/
def setEnvVar (store : List (String × String)) (k v : String) :
    List (String × String) :=
  (k, v) :: store

/-- Modelled from the spec: reading the environment store. -/
def getEnvVar (store : List (String × String)) (k : String) : Option String :=
  (store.find? (fun p => p.1 = k)).map (fun p => p.2)

/-- Modelled from the spec: `Utils.get_sys_env_var(k, dflt)` reads a system
environment variable and falls back to the given default when it is absent. -/
def get_sys_env_var (sysEnv : String → Option String) (k dflt : String) : String :=
  (sysEnv k).getD dflt

/-- Modelled from the spec: `FSUtil.build_path(a, b)` joins a directory and a
child name with a path separator. -/
def build_path (a b : String) : String := a ++ "/" ++ b

/-- The observable outcome of `init_environment`: the tools environment
store after the three writes, and the log directory passed to
`FSUtil.make_dirs`. -/
structure InitResult where
  store : List (String × String)
  createdLogDir : String
deriving DecidableEq

/-- `util.init_environment`: generate a uuid (`Utils.gen_uuid_with_ts`, a
timestamp-plus-random token modelled as the `uuid` parameter), publish it
under `UUID`; resolve `HOME` from the system environment with default
`/tmp`; derive and publish the tools home directory; derive the log
directory and log file, publish `LOG_FILE`, and create the log directory. -/
def init_environment (sysEnv : String → Option String)
    (store : List (String × String)) (uuid short_name : String) : InitResult :=
  let st1 := setEnvVar store "UUID" uuid
  let home_dir := get_sys_env_var sysEnv "HOME" "/tmp"
  let tools_home_dir := build_path home_dir ".spark_rapids_tools"
  let st2 := setEnvVar st1 "HOME" tools_home_dir
  let log_dir := tools_home_dir ++ "/logs"
  let log_file := log_dir ++ "/" ++ short_name ++ "_" ++ uuid ++ ".log"
  let st3 := setEnvVar st2 "LOG_FILE" log_file
  ⟨st3, log_dir⟩

/-- C8: with `HOME` absent from the system environment, `init_environment`
falls back to `/tmp`, derives the tools home `/tmp/.spark_rapids_tools`,
and publishes `LOG_FILE = /tmp/.spark_rapids_tools/logs/<short_name>_<uuid>.log`
(with the step-1 uuid) along with the `UUID` and overridden `HOME` entries;
the created log directory is `/tmp/.spark_rapids_tools/logs`. -/
theorem C8_init_environment_home_fallback (sysEnv : String → Option String)
    (store : List (String × String)) (uuid short_name : String)
    (hhome : sysEnv "HOME" = none) :
    getEnvVar (init_environment sysEnv store uuid short_name).store "LOG_FILE"
        = some ("/tmp/.spark_rapids_tools/logs/" ++ short_name ++ "_" ++ uuid ++ ".log")
    ∧ getEnvVar (init_environment sysEnv store uuid short_name).store "HOME"
        = some "/tmp/.spark_rapids_tools"
    ∧ getEnvVar (init_environment sysEnv store uuid short_name).store "UUID"
        = some uuid
    ∧ (init_environment sysEnv store uuid short_name).createdLogDir
        = "/tmp/.spark_rapids_tools/logs" := by
  rw [init_environment]
  simp only [get_sys_env_var, hhome, Option.getD_none]
  exact ⟨rfl, rfl, rfl, rfl⟩

/-- C8 witness: the theorem at a concrete empty system environment, store,
uuid and short name. -/
theorem C8_witness :
    getEnvVar (init_environment (fun _ => none) [] "20240101_abc" "qual").store "LOG_FILE"
        = some ("/tmp/.spark_rapids_tools/logs/" ++ "qual" ++ "_" ++ "20240101_abc" ++ ".log") :=
  (C8_init_environment_home_fallback (fun _ => none) [] "20240101_abc" "qual" rfl).1

/-! ### dump_tool_usage -/

/-- The possible outcomes of the external call
`fire.Fire(wrapper_clzz(), name=help_name, command=usage_cmd)`: normal
completion, the `FireExit` signal that `fire` raises after printing help
(carrying its exit code), or any other exception. -/
inductive FireOutcome where
  | completed
  | fireExit (code : Nat)
  | otherExc
deriving DecidableEq

/-- How a call to `dump_tool_usage` ends: returning normally, terminating
the process via `sys.exit` with the given code, or propagating an uncaught
exception. -/
inductive CallResult where
  | returned
  | exited (code : Nat)
  | raised
deriving DecidableEq

/-- `util.dump_tool_usage`: run the CLI help dispatch (outcome modelled as a
parameter), swallow `FireExit` (`except fire.core.FireExit: pass`), let any
other exception propagate, then `sys.exit(1)` when `raise_sys_exit` is
true. -/
def dump_tool_usage (fireOutcome : FireOutcome) (raise_sys_exit : Bool) : CallResult :=
  match fireOutcome with
  | .otherExc => .raised
  | .completed => if raise_sys_exit then .exited 1 else .returned
  | .fireExit _ => if raise_sys_exit then .exited 1 else .returned

/-- C9: at the default `raise_sys_exit=True`, `dump_tool_usage` swallows the
`FireExit` help signal (whatever exit code it carries, in particular the
`sys.exit(0)` of a successful help print) and terminates the process with
exit code exactly 1. -/
theorem C9_dump_tool_usage_swallows_fire_exit (code : Nat) :
    dump_tool_usage (FireOutcome.fireExit code) true = CallResult.exited 1
    ∧ dump_tool_usage (FireOutcome.fireExit code) true ≠ CallResult.raised := by
  exact ⟨rfl, by simp [dump_tool_usage]⟩

/-- C10: the process termination is conditional on the second parameter:
with `raise_sys_exit=False` the call returns normally (both after normal
completion and after a swallowed `FireExit`), and the exit-with-code-1
behaviour holds at `raise_sys_exit=True`. -/
theorem C10_dump_tool_usage_exit_conditional :
    dump_tool_usage FireOutcome.completed false = CallResult.returned
    ∧ (∀ code : Nat, dump_tool_usage (FireOutcome.fireExit code) false = CallResult.returned)
    ∧ dump_tool_usage FireOutcome.completed true = CallResult.exited 1
    ∧ (∀ code : Nat, dump_tool_usage (FireOutcome.fireExit code) true = CallResult.exited 1) :=
  ⟨rfl, fun _ => rfl, rfl, fun _ => rfl⟩

end SparkRapidsUtil
